import Mathlib

/-!
Verification of the water-quality training/prediction backend
(`backend/app.py`, `backend/utils.py`) against its specification.

The Python code is shallowly embedded: dataframes become lists of named
columns over `Option ℚ` (with `none` standing for NaN), floats become
rationals, fallible paths return `Except`, and the global mutable
`training_state` dictionary becomes explicit state passing.
-/

namespace WaterQuality

/-- The eight canonical feature column names (`FEATURES` in `app.py`). -/
def FEATURES : List String :=
  ["Temp", "pH", "Conductivity", "Nitrate", "Fecal_Coliform",
   "Total_Coliform", "TDS", "Fluoride"]

/-- The target column name (`TARGET` in `app.py`). -/
def TARGET : String := "WQI"

/-- Registry iteration order of the five models, as produced by
`build_models()` (Python dicts iterate in insertion order). -/
def MODEL_NAMES : List String :=
  ["Ridge", "SVR", "RandomForest", "GradientBoosting", "XGBoost"]

/-- `classify_wqi` from `app.py`: step function on fixed thresholds. -/
def classify_wqi (wqi : ℚ) : String :=
  if wqi ≤ 25 then "Excellent"
  else if wqi ≤ 50 then "Good"
  else if wqi ≤ 75 then "Poor"
  else if wqi ≤ 100 then "Very Poor"
  else "Unsuitable for Drinking"

/-- The epsilon added to the MAPE denominator in `train_models`
(`epsilon = 1e-10`). -/
def EPS : ℚ := 1 / 10000000000

/-- The MAPE computation of `train_models`:
`np.mean(np.abs((y_test - y_pred) / (y_test + epsilon))) * 100`, then
`min(mape, 100.0)`.  `np.mean` is sum divided by length. -/
def mapeOf (actual pred : List ℚ) : ℚ :=
  let ratios := List.zipWith (fun a p => |(a - p) / (a + EPS)|) actual pred
  min ((ratios.sum / (ratios.length : ℚ)) * 100) 100

/-- One per-model result record, restricted to the fields the selector
reads (`model_name` and `test_rmse` of the dicts built in `train_models`). -/
structure ModelResult where
  model_name : String
  test_rmse : ℚ
deriving Repr, DecidableEq

/-- Comparison key of `results.sort(key=lambda x: x['test_rmse'])`. -/
def rmseLE (a b : ModelResult) : Prop := a.test_rmse ≤ b.test_rmse

instance : DecidableRel rmseLE := fun a b => inferInstanceAs (Decidable (_ ≤ _))

instance : IsTotal ModelResult rmseLE := ⟨fun a b => le_total a.test_rmse b.test_rmse⟩

instance : IsTrans ModelResult rmseLE := ⟨fun _ _ _ => le_trans⟩

/-- `results.sort(key=lambda x: x['test_rmse'])`: Python's list sort is
specified stable, and any stable sort by a total preorder is extensionally
insertion sort, so the embedding uses insertion sort. -/
def sortByRmse (results : List ModelResult) : List ModelResult :=
  List.insertionSort rmseLE results

/-- The selector: `results.sort(...)` followed by `best_model = results[0]`
(lines 464-466 of `app.py`); `none` when the result list is empty. -/
def select (results : List ModelResult) : Option ModelResult :=
  (sortByRmse results).head?

/-- The five records of the spec scenario, in registry iteration order,
with test RMSEs [3.1, 2.9, 4.0, 2.9, 3.5]. -/
def tieRecords : List ModelResult :=
  [⟨"Ridge", 3.1⟩, ⟨"SVR", 2.9⟩, ⟨"RandomForest", 4.0⟩,
   ⟨"GradientBoosting", 2.9⟩, ⟨"XGBoost", 3.5⟩]

/-- Pandas dtype, collapsed to what `preprocess_dataframe` inspects:
numeric versus `object`/`string`. -/
inductive Dtype where
  | numeric : Dtype
  | textual : Dtype
deriving Repr, DecidableEq

/-- One dataframe column: its dtype and its cell values, `none` being NaN. -/
structure Column where
  dtype : Dtype
  values : List (Option ℚ)
deriving Repr, DecidableEq

/-- A dataframe: named columns in order. -/
abbrev Frame := List (String × Column)

/-- Column names of a frame, in order (`df.columns`). -/
def names (df : Frame) : List String := df.map Prod.fst

/-- `RENAME_MAP` from `app.py`. -/
def RENAME_MAP : List (String × String) :=
  [("Temperature ⁰C", "Temp"),
   ("Temperature", "Temp"),
   ("Conductivity (μmhos/cm)", "Conductivity"),
   ("Nitrate N (mg/L)", "Nitrate"),
   ("Nitrate", "Nitrate"),
   ("Faecal Coliform (MPN/100ml)", "Fecal_Coliform"),
   ("Fecal Coliform (MPN/100ml)", "Fecal_Coliform"),
   ("Total Coliform (MPN/100ml)", "Total_Coliform"),
   ("Total Dissolved Solids (mg/L)", "TDS"),
   ("Fluoride (mg/L)", "Fluoride")]

/-- `df.rename(columns=present_map)`: each column name is looked up in the
alias map (restricting the dict to present keys does not change the
result of the rename). -/
def renameCols (df : Frame) : Frame :=
  df.map (fun p => ((RENAME_MAP.lookup p.1).getD p.1, p.2))

/-- `cols_to_drop` from `preprocess_dataframe`. -/
def COLS_TO_DROP : List String :=
  ["State Name", "State", "Location", "Station", "Date",
   "Monitoring Location", "Station Code", "District", "Block",
   "WQI_Classification", "WQI_Class", "WQI_Class_Encoded"]

/-- Drop the fixed block list of known categorical columns. -/
def dropListed (df : Frame) : Frame :=
  df.filter (fun p => !(COLS_TO_DROP.contains p.1))

/-- Drop any remaining column whose dtype is `object`/`string`. -/
def dropTextual (df : Frame) : Frame :=
  df.filter (fun p => p.2.dtype == Dtype.numeric)

/-- The rename-then-drop stages of `preprocess_dataframe`, before the
required-column validation. -/
def cleanStage (df : Frame) : Frame :=
  dropTextual (dropListed (renameCols df))

/-- Pandas `Series.median()` (with the default `skipna`, on the list of
non-NaN values): middle element of the sorted values for odd length, the
average of the two middle elements for even length, NaN (`none`) when no
values remain. -/
def medianOf (l : List ℚ) : Option ℚ :=
  let s := List.insertionSort (· ≤ ·) l
  if s.length = 0 then none
  else if s.length % 2 = 1 then some (s.getD (s.length / 2) 0)
  else some ((s.getD (s.length / 2 - 1) 0 + s.getD (s.length / 2) 0) / 2)

/-- `series.fillna(series.median())`: filling with a NaN median (the
all-NaN column case) leaves the values unchanged. -/
def fillnaVals (vals : List (Option ℚ)) : List (Option ℚ) :=
  match medianOf (vals.filterMap id) with
  | none => vals
  | some m => vals.map (fun v => some (v.getD m))

/-- The per-column imputation of `preprocess_dataframe`: only columns with
at least one NaN are touched. -/
def imputeVals (vals : List (Option ℚ)) : List (Option ℚ) :=
  if vals.any (fun v => v.isNone) then fillnaVals vals else vals

/-- First column with the given name, if any (`df[col]` on a frame with
unique column names). -/
def getCol (df : Frame) (c : String) : Option Column :=
  (df.find? (fun p => p.1 == c)).map Prod.snd

/-- Values of the named column, `[]` when absent. -/
def colVals (df : Frame) (n : String) : List (Option ℚ) :=
  ((getCol df n).map Column.values).getD []

/-- Replace the values of every column named `c`. -/
def setColVals (df : Frame) (c : String) (vals : List (Option ℚ)) : Frame :=
  df.map (fun p => if p.1 = c then (p.1, { p.2 with values := vals }) else p)

/-- `df[col].fillna(df[col].median(), inplace=True)` guarded by
`df[col].isna().any()`, for one column; absent columns are untouched. -/
def imputeCol (df : Frame) (c : String) : Frame :=
  match getCol df c with
  | none => df
  | some col =>
      if col.values.any (fun v => v.isNone) then
        setColVals df c (fillnaVals col.values)
      else df

/-- The `for col in FEATURES` imputation loop. -/
def imputeFeatures (df : Frame) : Frame := FEATURES.foldl imputeCol df

/-- The target imputation (`is_training and TARGET in df.columns`). -/
def imputeTarget (df : Frame) : Frame := imputeCol df TARGET

/-- NaN-propagating lift of a unary operation (numpy elementwise). -/
def omap (f : ℚ → ℚ) (v : Option ℚ) : Option ℚ := v.map f

/-- NaN-propagating lift of a binary operation (numpy elementwise). -/
def omap2 (f : ℚ → ℚ → ℚ) (a b : Option ℚ) : Option ℚ :=
  match a, b with
  | some x, some y => some (f x y)
  | _, _ => none

/-- A derived-feature rule: new column name, prerequisite canonical
columns, and the elementwise formula reading the prerequisite columns.
`log1p` abstracts `np.log1p`, i.e. x ↦ log(1 + x); the presence rules and
the other formulas do not depend on its values. -/
def derivedDefs (log1p : ℚ → ℚ) :
    List (String × List String × (Frame → List (Option ℚ))) :=
  [("pH_Temp_interaction", ["pH", "Temp"], fun df =>
      List.zipWith (omap2 (· * ·)) (colVals df "pH") (colVals df "Temp")),
   ("TDS_Conductivity_ratio", ["TDS", "Conductivity"], fun df =>
      List.zipWith (omap2 (fun a b => a / (b + 1)))
        (colVals df "TDS") (colVals df "Conductivity")),
   ("Coliform_ratio", ["Fecal_Coliform", "Total_Coliform"], fun df =>
      List.zipWith (omap2 (fun a b => a / (b + 1)))
        (colVals df "Fecal_Coliform") (colVals df "Total_Coliform")),
   ("Fecal_Coliform_log", ["Fecal_Coliform"], fun df =>
      (colVals df "Fecal_Coliform").map (omap log1p)),
   ("Total_Coliform_log", ["Total_Coliform"], fun df =>
      (colVals df "Total_Coliform").map (omap log1p)),
   ("TDS_log", ["TDS"], fun df =>
      (colVals df "TDS").map (omap log1p)),
   ("pH_squared", ["pH"], fun df =>
      (colVals df "pH").map (omap (fun x => x * x))),
   ("Temp_squared", ["Temp"], fun df =>
      (colVals df "Temp").map (omap (fun x => x * x)))]

/-- The derived column names, in creation order. -/
def derivedNames : List String :=
  ["pH_Temp_interaction", "TDS_Conductivity_ratio", "Coliform_ratio",
   "Fecal_Coliform_log", "Total_Coliform_log", "TDS_log",
   "pH_squared", "Temp_squared"]

/-- `df[name] = vals`: pandas column assignment replaces an existing
column of that name and otherwise appends a new last column. -/
def setCol (df : Frame) (c : String) (col : Column) : Frame :=
  if (names df).contains c then
    df.map (fun p => if p.1 = c then (p.1, col) else p)
  else df ++ [(c, col)]

/-- One guarded derived-feature assignment
(`if all(col in df.columns for col in [...]): df[name] = formula`). -/
def applyDerived (df : Frame)
    (s : String × List String × (Frame → List (Option ℚ))) : Frame :=
  if s.2.1.all (fun c => (names df).contains c) then
    setCol df s.1 ⟨Dtype.numeric, s.2.2 df⟩
  else df

/-- Steps 2-4 of `preprocess_dataframe`: the derived-feature block, run in
source order. -/
def addDerived (log1p : ℚ → ℚ) (df : Frame) : Frame :=
  (derivedDefs log1p).foldl applyDerived df

/-- Required columns: the eight features, plus the target when training. -/
def requiredCols (isTraining : Bool) : List String :=
  if isTraining then FEATURES ++ [TARGET] else FEATURES

/-- `preprocess_dataframe(df, is_training)`: rename, drop, validate
(the `ValueError` message enumerates the missing required columns; the
embedding carries that list as the error payload), impute, derive. -/
def preprocess (log1p : ℚ → ℚ) (isTraining : Bool) (df : Frame) :
    Except (List String) Frame :=
  let df3 := cleanStage df
  let missing := (requiredCols isTraining).filter
    (fun c => !((names df3).contains c))
  if missing.isEmpty then
    let df4 := imputeFeatures df3
    let df5 := if isTraining then imputeTarget df4 else df4
    Except.ok (addDerived log1p df5)
  else Except.error missing

/-- Remove every column named `c` from a frame (input-completeness
experiment for the monotonicity claim). -/
def removeCol (df : Frame) (c : String) : Frame :=
  df.filter (fun p => !(p.1 == c))

/-- Character-list prefix test (used to model Python string methods with
kernel-computable definitions). -/
def prefixList : List Char → List Char → Bool
  | [], _ => true
  | _ :: _, [] => false
  | a :: as, b :: bs => a == b && prefixList as bs

/-- Character-list suffix test. -/
def suffixList (pat s : List Char) : Bool :=
  prefixList pat.reverse s.reverse

/-- Character-list substring test. -/
def infixList (pat : List Char) : List Char → Bool
  | [] => pat.isEmpty
  | b :: bs => prefixList pat (b :: bs) || infixList pat bs

/-- Whether the string `pat` occurs inside `s`. -/
def containsSubstr (s pat : String) : Bool := infixList pat.data s.data

/-- `allowed_file` from `app.py`:
`'.' in filename and filename.rsplit('.', 1)[1].lower() in {'csv'}`.
The segment after the last dot is the last piece of splitting on dots. -/
def allowed_file (filename : String) : Bool :=
  filename.data.contains '.' &&
    ((filename.data.splitOn '.').getLastD []).map Char.toLower == "csv".data

/-- The artifact-file filter of `predict`:
`f.startswith(f"{model_name}_model_") and f.endswith('.pkl')`. -/
def modelFileMatches (modelName fname : String) : Bool :=
  prefixList (modelName ++ "_model_").data fname.data &&
    suffixList ".pkl".data fname.data

/-- Lexicographic strict order on character lists by code point — the
order Python uses to compare strings in `model_files.sort(reverse=True)`. -/
def lexLt : List Char → List Char → Bool
  | [], [] => false
  | [], _ :: _ => true
  | _ :: _, [] => false
  | a :: as, b :: bs => if a = b then lexLt as bs else decide (a < b)

/-- Python string comparison of two filenames. -/
def fileLt (s t : String) : Bool := lexLt s.data t.data

/-- Greatest element of a nonempty string list under `fileLt` — what
`sort(reverse=True)` followed by `[0]` selects. -/
def maxFileFrom (f : String) (rest : List String) : String :=
  rest.foldl (fun acc g => if fileLt acc g then g else acc) f

/-- Artifact resolution in `predict` (lines 543-552 of `app.py`): filter
the model folder listing by prefix/suffix; if empty, fail with the
`ModelNotFound` message; otherwise sort descending and take the first
element, i.e. the lexicographically greatest matching filename. -/
def latestModelFile (files : List String) (modelName : String) :
    Except String String :=
  match files.filter (modelFileMatches modelName) with
  | [] => Except.error ("No trained model found for " ++ modelName)
  | f :: rest => Except.ok (maxFileFrom f rest)

/-- `predictions = model.predict(X_pred)`: one prediction per input row. -/
def predictRows (model : List ℚ → ℚ) (rows : List (List ℚ)) : List ℚ :=
  rows.map model

/-- The process-wide `training_state` dictionary. -/
structure TrainingState where
  is_training : Bool
  progress : ℕ
  current_model : String
  models_trained : List String
deriving Repr, DecidableEq

/-- The module-level initial `training_state`. -/
def initState : TrainingState := ⟨false, 0, "", []⟩

/-- The per-model loop of `train_models`, with the fit/tune/evaluate work
of one model abstracted as `fit` (returning `()` or raising a message).
Each iteration sets `current_model` and `progress`
(`int((idx / total_models) * 100)`), and appends the model name to
`models_trained` after the model completes.  A raised exception stops the
loop and is propagated. -/
def loopModels (fit : String → Except String Unit) (total : ℕ) :
    ℕ → List String → TrainingState → TrainingState × Option String
  | _, [], ts => (ts, none)
  | idx, n :: rest, ts =>
      let ts1 : TrainingState :=
        { ts with current_model := n, progress := idx * 100 / total }
      match fit n with
      | Except.error e => (ts1, some e)
      | Except.ok _ =>
          loopModels fit total (idx + 1) rest
            { ts1 with models_trained := ts1.models_trained ++ [n] }

/-- One `/api/train` run from the model loop onwards: set
`is_training := True`, run the five models, then on success write the
training summary and latest-training record (the `Bool` component) and
clear the flag; on any exception the `except` clause clears the flag and
returns the exception's own message, with nothing persisted. -/
def trainLoop (fit : String → Except String Unit) (ts : TrainingState) :
    Except String Unit × TrainingState × Bool :=
  match loopModels fit MODEL_NAMES.length 0 MODEL_NAMES
      { ts with is_training := true } with
  | (ts1, some e) => (Except.error e, { ts1 with is_training := false }, false)
  | (ts1, none) =>
      (Except.ok (), { ts1 with is_training := false, progress := 100 }, true)

/-- `k` successive successful-or-not training runs against the same
process-wide state. -/
def iterateRuns (fit : String → Except String Unit) :
    ℕ → TrainingState → TrainingState
  | 0, ts => ts
  | k + 1, ts => iterateRuns fit k (trainLoop fit ts).2.1

/-- A fit function on which every model succeeds. -/
def fitOk : String → Except String Unit := fun _ => Except.ok ()

/-- A fit function on which SVR raises `"boom"` and the others succeed. -/
def fitBoomSVR : String → Except String Unit :=
  fun n => if n = "SVR" then Except.error "boom" else Except.ok ()

/-- The persisted artifact and results files (the `models` and `results`
folders). -/
structure StoreState where
  models : List String
  results : List String
deriving Repr, DecidableEq

/-- A `/api/train` request: the upload's filename and the column names of
the parsed CSV. -/
structure TrainRequest where
  filename : String
  csvColumns : List String
deriving Repr, DecidableEq

/-- Outcome of the upload-handling prefix of `train_models`. -/
inductive TrainResponse where
  | errNoFile : TrainResponse
  | errBadType : TrainResponse
  | errNoWQI : TrainResponse
  | proceed : TrainResponse
deriving Repr, DecidableEq

/-- The upload-handling prefix of `train_models` (lines 282-328 of
`app.py`): filename checks, then the unconditional purge of every file in
the model and results folders, then saving/parsing the upload and the
WQI-presence check.  `proceed` stands for continuing into preprocessing
and the training loop. -/
def trainEndpoint (store : StoreState) (req : TrainRequest) :
    TrainResponse × StoreState :=
  if req.filename = "" then (TrainResponse.errNoFile, store)
  else if !(allowed_file req.filename) then (TrainResponse.errBadType, store)
  else
    let purged : StoreState := { models := [], results := [] }
    if !(req.csvColumns.contains TARGET) then (TrainResponse.errNoWQI, purged)
    else (TrainResponse.proceed, purged)

/-- A concrete store holding one artifact and one results file. -/
def storeWithArtifacts : StoreState :=
  ⟨["Ridge_model_20240101_000000.pkl"], ["training_summary_20240101_000000.json"]⟩

/-- A concrete request: acceptable CSV filename whose table has all eight
canonical features but no WQI column. -/
def reqNoWQI : TrainRequest := ⟨"data.csv", FEATURES⟩

/-- Projection of a successful preprocessing result. -/
def okFrame (r : Except (List String) Frame) : Option Frame :=
  match r with
  | Except.ok out => some out
  | Except.error _ => none

/-- A single-cell numeric column. -/
def oneNum (v : Option ℚ) : Column := ⟨Dtype.numeric, [v]⟩

/-- A concrete training table with every required column except
`Fluoride`. -/
def dfNoFluoride : Frame :=
  [("Temp", oneNum (some 20)), ("pH", oneNum (some 7)),
   ("Conductivity", oneNum (some 300)), ("Nitrate", oneNum (some 4)),
   ("Fecal_Coliform", oneNum (some 10)), ("Total_Coliform", oneNum (some 40)),
   ("TDS", oneNum (some 500)), ("WQI", oneNum (some 50))]

/-- A concrete training table with all required columns, numeric dtype,
whose `Fluoride` column consists entirely of NaN. -/
def dfNaNFluoride : Frame :=
  [("Temp", oneNum (some 20)), ("pH", oneNum (some 7)),
   ("Conductivity", oneNum (some 300)), ("Nitrate", oneNum (some 4)),
   ("Fecal_Coliform", oneNum (some 10)), ("Total_Coliform", oneNum (some 40)),
   ("TDS", oneNum (some 500)), ("Fluoride", oneNum none),
   ("WQI", oneNum (some 50))]

/-- A concrete two-row training table with all required columns (one NaN
in `Temp`, at least one present value per column) and a categorical
column that the clean stage drops. -/
def dfFull : Frame :=
  [("Temp", ⟨Dtype.numeric, [some 20, none]⟩),
   ("pH", ⟨Dtype.numeric, [some 7, some 8]⟩),
   ("Conductivity", ⟨Dtype.numeric, [some 300, some 100]⟩),
   ("Nitrate", ⟨Dtype.numeric, [some 4, some 6]⟩),
   ("Fecal_Coliform", ⟨Dtype.numeric, [some 10, some 20]⟩),
   ("Total_Coliform", ⟨Dtype.numeric, [some 40, some 60]⟩),
   ("TDS", ⟨Dtype.numeric, [some 500, some 700]⟩),
   ("Fluoride", ⟨Dtype.numeric, [some 1, some 2]⟩),
   ("WQI", ⟨Dtype.numeric, [some 50, some 60]⟩),
   ("State Name", ⟨Dtype.textual, [none, none]⟩)]

end WaterQuality

namespace WaterQuality

lemma getCol_cons (p : String × Column) (rest : Frame) (c : String) :
    getCol (p :: rest) c = if p.1 = c then some p.2 else getCol rest c := by
  by_cases h : p.1 = c <;> simp [getCol, List.find?_cons, h]

lemma names_cons (p : String × Column) (rest : Frame) :
    names (p :: rest) = p.1 :: names rest := rfl

lemma getCol_setColVals_ne (df : Frame) (c c' : String)
    (vals : List (Option ℚ)) (h : c' ≠ c) :
    getCol (setColVals df c vals) c' = getCol df c' := by
  induction df with
  | nil => rfl
  | cons p rest ih =>
    by_cases hp : p.1 = c
    · simp [setColVals, getCol_cons, hp, Ne.symm h] at ih ⊢
      simpa [setColVals] using ih
    · by_cases hp' : p.1 = c'
      · simp [setColVals, getCol_cons, hp, hp', h]
      · simp [setColVals, getCol_cons, hp, hp'] at ih ⊢
        simpa [setColVals] using ih

lemma getCol_setColVals_self (df : Frame) (c : String)
    (vals : List (Option ℚ)) :
    getCol (setColVals df c vals) c =
      (getCol df c).map (fun col => { col with values := vals }) := by
  induction df with
  | nil => rfl
  | cons p rest ih =>
    by_cases hp : p.1 = c
    · simp [setColVals, getCol_cons, hp]
    · simp [setColVals, getCol_cons, hp] at ih ⊢
      simpa [setColVals] using ih

lemma getCol_imputeCol_ne (df : Frame) (c c' : String) (h : c' ≠ c) :
    getCol (imputeCol df c) c' = getCol df c' := by
  unfold imputeCol
  cases hg : getCol df c with
  | none => rfl
  | some col =>
    by_cases hna : col.values.any (fun v => v.isNone)
    · simp [hna, getCol_setColVals_ne df c c' _ h]
    · simp [hna]

lemma getCol_imputeCol_self (df : Frame) (c : String) :
    getCol (imputeCol df c) c =
      (getCol df c).map (fun col => { col with values := imputeVals col.values }) := by
  unfold imputeCol
  cases hg : getCol df c with
  | none => simp [hg]
  | some col =>
    by_cases hna : none ∈ col.values
    · have hb : (col.values.any fun v => v.isNone) = true := by simpa using hna
      simp [hb, getCol_setColVals_self, hg, imputeVals, hna]
    · have hb : ¬(col.values.any fun v => v.isNone) = true := by simpa using hna
      simp [hb, hg, imputeVals, hna]

lemma getCol_foldl_imputeCol_notMem (cs : List String) (df : Frame)
    (c : String) (h : c ∉ cs) :
    getCol (cs.foldl imputeCol df) c = getCol df c := by
  induction cs generalizing df with
  | nil => rfl
  | cons c0 rest ih =>
    rw [List.foldl_cons, ih _ (fun hc => h (List.mem_cons_of_mem c0 hc)),
      getCol_imputeCol_ne df c0 c (fun hc => h (hc ▸ List.mem_cons_self c0 rest))]

lemma getCol_foldl_imputeCol_mem (cs : List String) (df : Frame)
    (c : String) (h : c ∈ cs) (hnd : cs.Nodup) :
    getCol (cs.foldl imputeCol df) c =
      (getCol df c).map (fun col => { col with values := imputeVals col.values }) := by
  induction cs generalizing df with
  | nil => cases h
  | cons c0 rest ih =>
    rcases List.mem_cons.mp h with rfl | hmem
    · rw [List.foldl_cons,
        getCol_foldl_imputeCol_notMem rest _ c (List.Nodup.not_mem hnd),
        getCol_imputeCol_self]
    · rw [List.foldl_cons, ih (imputeCol df c0) hmem (List.Nodup.of_cons hnd),
        getCol_imputeCol_ne df c0 c
          (fun hc => (List.Nodup.not_mem hnd) (hc ▸ hmem))]

lemma contains_iff (l : List String) (a : String) : l.contains a = true ↔ a ∈ l :=
  List.elem_iff

lemma getCol_eq_none (df : Frame) (c : String) :
    getCol df c = none ↔ c ∉ names df := by
  induction df with
  | nil => simp [getCol, names]
  | cons p rest ih =>
    by_cases hp : p.1 = c
    · simp [getCol_cons, hp, names_cons]
    · have hp' : ¬c = p.1 := fun h => hp h.symm
      simp [getCol_cons, hp, names_cons, ih, hp']

lemma getCol_replaceAll (df : Frame) (c : String) (col : Column) :
    getCol (df.map (fun p => if p.1 = c then (p.1, col) else p)) c =
      if c ∈ names df then some col else none := by
  induction df with
  | nil => rfl
  | cons p rest ih =>
    by_cases hp : p.1 = c
    · simp [getCol_cons, hp, names_cons]
    · have hp' : ¬c = p.1 := fun h => hp h.symm
      simp [getCol_cons, hp, names_cons, ih, hp']

lemma getCol_replaceAll_ne (df : Frame) (c : String) (col : Column)
    (c' : String) (h : c' ≠ c) :
    getCol (df.map (fun p => if p.1 = c then (p.1, col) else p)) c' =
      getCol df c' := by
  induction df with
  | nil => rfl
  | cons p rest ih =>
    by_cases hp : p.1 = c
    · simp [getCol_cons, hp, Ne.symm h, ih]
    · by_cases hp' : p.1 = c'
      · simp [getCol_cons, hp, hp', h]
      · simp [getCol_cons, hp, hp', ih]

lemma getCol_append_single (df : Frame) (c : String) (col : Column) :
    getCol (df ++ [(c, col)]) c = some ((getCol df c).getD col) := by
  induction df with
  | nil => simp [getCol]
  | cons p rest ih =>
    by_cases hp : p.1 = c
    · simp [getCol_cons, hp]
    · simp [getCol_cons, hp, ih]

lemma getCol_append_single_ne (df : Frame) (c : String) (col : Column)
    (c' : String) (h : c' ≠ c) :
    getCol (df ++ [(c, col)]) c' = getCol df c' := by
  induction df with
  | nil => simp [getCol_cons, Ne.symm h, getCol]
  | cons p rest ih =>
    by_cases hp : p.1 = c'
    · simp [getCol_cons, hp]
    · simp [getCol_cons, hp, ih]

lemma names_replaceAll (df : Frame) (c : String) (col : Column) :
    names (df.map (fun p => if p.1 = c then (p.1, col) else p)) = names df := by
  induction df with
  | nil => rfl
  | cons p rest ih =>
    by_cases hp : p.1 = c <;>
    · simp [names_cons, hp, names]
      intro a b _
      by_cases ha : a = c <;> simp [ha]

lemma getCol_setCol_self (df : Frame) (c : String) (col : Column) :
    getCol (setCol df c col) c = some col := by
  unfold setCol
  by_cases hc : c ∈ names df
  · rw [if_pos ((contains_iff _ _).mpr hc), getCol_replaceAll, if_pos hc]
  · have hb : ¬(names df).contains c = true := fun h => hc ((contains_iff _ _).mp h)
    rw [if_neg hb, getCol_append_single, (getCol_eq_none df c).mpr hc]
    rfl

lemma getCol_setCol_ne (df : Frame) (c : String) (col : Column)
    (c' : String) (h : c' ≠ c) :
    getCol (setCol df c col) c' = getCol df c' := by
  unfold setCol
  by_cases hc : (names df).contains c = true
  · rw [if_pos hc]
    exact getCol_replaceAll_ne df c col c' h
  · rw [if_neg hc]
    exact getCol_append_single_ne df c col c' h

lemma names_setCol (df : Frame) (c : String) (col : Column) :
    names (setCol df c col) =
      if c ∈ names df then names df else names df ++ [c] := by
  unfold setCol
  by_cases hc : c ∈ names df
  · rw [if_pos ((contains_iff _ _).mpr hc), names_replaceAll, if_pos hc]
  · have hb : ¬(names df).contains c = true := fun h => hc ((contains_iff _ _).mp h)
    rw [if_neg hb, if_neg hc]
    simp [names]

lemma getCol_applyDerived_ne (df : Frame)
    (s : String × List String × (Frame → List (Option ℚ)))
    (c : String) (h : c ≠ s.1) :
    getCol (applyDerived df s) c = getCol df c := by
  unfold applyDerived
  split
  · exact getCol_setCol_ne df s.1 _ c h
  · rfl

lemma getCol_foldl_applyDerived_ne
    (ss : List (String × List String × (Frame → List (Option ℚ))))
    (df : Frame) (c : String) (h : c ∉ ss.map (fun s => s.1)) :
    getCol (ss.foldl applyDerived df) c = getCol df c := by
  induction ss generalizing df with
  | nil => rfl
  | cons s rest ih =>
    rw [List.foldl_cons,
      ih _ (fun hc => h (by simp [List.mem_cons]; right; simpa using hc)),
      getCol_applyDerived_ne df s c (fun hc => h (by simp [hc]))]

lemma mem_names_applyDerived (df : Frame)
    (s : String × List String × (Frame → List (Option ℚ)))
    (c : String) (h : c ∈ names df) : c ∈ names (applyDerived df s) := by
  unfold applyDerived
  split
  · rw [names_setCol]
    split
    · exact h
    · exact List.mem_append_left _ h
  · exact h

lemma mem_names_foldl_applyDerived
    (ss : List (String × List String × (Frame → List (Option ℚ))))
    (df : Frame) (c : String) (h : c ∈ names df) :
    c ∈ names (ss.foldl applyDerived df) := by
  induction ss generalizing df with
  | nil => exact h
  | cons s rest ih => exact ih _ (mem_names_applyDerived df s c h)

lemma all_congr_bool {α : Type} (l : List α) (f g : α → Bool)
    (h : ∀ a ∈ l, f a = g a) : l.all f = l.all g := by
  induction l with
  | nil => rfl
  | cons a t ih =>
    simp only [List.all_cons, h a (List.mem_cons_self a t),
      ih (fun b hb => h b (List.mem_cons_of_mem a hb))]

lemma contains_eq_of_mem_iff {l1 l2 : List String} {c : String}
    (h : c ∈ l1 ↔ c ∈ l2) : l1.contains c = l2.contains c := by
  by_cases hc : c ∈ l1
  · rw [(contains_iff l1 c).mpr hc, (contains_iff l2 c).mpr (h.mp hc)]
  · have h1 : ¬l1.contains c = true := fun hh => hc ((contains_iff _ _).mp hh)
    have h2 : ¬l2.contains c = true :=
      fun hh => hc (h.mpr ((contains_iff _ _).mp hh))
    simp only [Bool.not_eq_true] at h1 h2
    rw [h1, h2]

lemma filter_cons_pos {α : Type} (p : α → Bool) (a : α) (l : List α)
    (h : p a = true) : (a :: l).filter p = a :: l.filter p := by
  simp [List.filter_cons, h]

lemma filter_cons_neg {α : Type} (p : α → Bool) (a : α) (l : List α)
    (h : ¬p a = true) : (a :: l).filter p = l.filter p := by
  simp [List.filter_cons, h]

lemma allContains_iff (l ns : List String) :
    l.all (fun c => ns.contains c) = true ↔ ∀ c ∈ l, c ∈ ns := by
  simp only [List.all_eq_true, contains_iff]

/-- Column names after the derived-feature fold: the input names followed
by the names of exactly those rules whose prerequisites are all present in
the input, in rule order.  Hypotheses: the rule names are fresh for the
frame, mutually distinct, and never referenced as prerequisites. -/
lemma names_foldl_applyDerived :
    ∀ (ss : List (String × List String × (Frame → List (Option ℚ))))
      (df : Frame),
    (∀ n ∈ ss.map (fun s => s.1), n ∉ names df) →
    ((ss.map (fun s => s.1)).Nodup) →
    (∀ s ∈ ss, ∀ c ∈ s.2.1, c ∉ ss.map (fun s => s.1)) →
    names (ss.foldl applyDerived df) =
      names df ++
        (ss.filter (fun s => s.2.1.all (fun c => (names df).contains c))).map
          (fun s => s.1) := by
  intro ss
  induction ss with
  | nil => intro df _ _ _; simp
  | cons s rest ih =>
    intro df h1 h2 h3
    have hs1 : s.1 ∉ names df := h1 s.1 (by simp)
    by_cases hc : s.2.1.all (fun c => (names df).contains c) = true
    · have hstep : applyDerived df s = setCol df s.1 ⟨Dtype.numeric, s.2.2 df⟩ := by
        unfold applyDerived; rw [if_pos hc]
      have hnames1 : names (applyDerived df s) = names df ++ [s.1] := by
        rw [hstep, names_setCol, if_neg hs1]
      have hsnotrest : s.1 ∉ rest.map (fun s => s.1) := by
        have := h2
        simp only [List.map_cons, List.nodup_cons] at this
        exact this.1
      have hih := ih (applyDerived df s)
        (fun n hn => by
          rw [hnames1]
          intro hmem
          rcases List.mem_append.mp hmem with hmem | hmem
          · exact h1 n (by simp [hn]) hmem
          · rcases List.mem_singleton.mp hmem with rfl
            exact hsnotrest hn)
        (by
          have := h2
          simp only [List.map_cons, List.nodup_cons] at this
          exact this.2)
        (fun s' hs' c hcmem hmem =>
          h3 s' (List.mem_cons_of_mem s hs') c hcmem (by simp [hmem]))
      rw [List.foldl_cons, hih]
      have hfc : rest.filter
            (fun s' => s'.2.1.all (fun c => (names (applyDerived df s)).contains c)) =
          rest.filter
            (fun s' => s'.2.1.all (fun c => (names df).contains c)) := by
        refine List.filter_congr (fun s' hs' => ?_)
        refine all_congr_bool _ _ _ (fun c hcmem => ?_)
        refine contains_eq_of_mem_iff ?_
        rw [hnames1]
        have hcs : c ≠ s.1 := by
          intro hcs
          exact h3 s' (List.mem_cons_of_mem s hs') c hcmem (by simp [hcs])
        constructor
        · intro hmem
          rcases List.mem_append.mp hmem with hmem | hmem
          · exact hmem
          · exact absurd (List.mem_singleton.mp hmem) hcs
        · exact fun hmem => List.mem_append_left _ hmem
      rw [hfc, hnames1,
        filter_cons_pos (fun s' => s'.2.1.all (fun c => (names df).contains c))
          s rest hc,
        List.map_cons]
      simp
    · have hstep : applyDerived df s = df := by
        unfold applyDerived
        rw [if_neg hc]
      have hih := ih df
        (fun n hn => h1 n (by simp [hn]))
        (by
          have := h2
          simp only [List.map_cons, List.nodup_cons] at this
          exact this.2)
        (fun s' hs' c hcmem hmem =>
          h3 s' (List.mem_cons_of_mem s hs') c hcmem (by simp [hmem]))
      rw [List.foldl_cons, hstep, hih,
        filter_cons_neg (fun s' => s'.2.1.all (fun c => (names df).contains c))
          s rest hc]

/-- A derived rule whose prerequisites are present produces a column equal
to its formula evaluated on the input frame, and the column survives to
the end of the fold.  `hform` states that the formula reads only columns
that are not rule names. -/
lemma getCol_foldl_applyDerived_produced
    (pre post : List (String × List String × (Frame → List (Option ℚ))))
    (s : String × List String × (Frame → List (Option ℚ)))
    (df : Frame)
    (h2 : ((pre ++ s :: post).map (fun s => s.1)).Nodup)
    (h3 : ∀ c ∈ s.2.1, c ∉ (pre ++ s :: post).map (fun s' => s'.1))
    (hform : ∀ df' : Frame,
      (∀ c, c ∉ (pre ++ s :: post).map (fun s' => s'.1) →
        getCol df' c = getCol df c) → s.2.2 df' = s.2.2 df)
    (hc : s.2.1.all (fun c => (names df).contains c) = true) :
    getCol ((pre ++ s :: post).foldl applyDerived df) s.1 =
      some ⟨Dtype.numeric, s.2.2 df⟩ := by
  rw [List.foldl_append, List.foldl_cons]
  have hdf1 : ∀ c, c ∉ (pre ++ s :: post).map (fun s' => s'.1) →
      getCol (pre.foldl applyDerived df) c = getCol df c := by
    intro c hcn
    refine getCol_foldl_applyDerived_ne pre df c (fun hmem => hcn ?_)
    rw [List.map_append]
    exact List.mem_append_left _ hmem
  have hval : s.2.2 (pre.foldl applyDerived df) = s.2.2 df := hform _ hdf1
  have hcond1 : s.2.1.all
      (fun c => (names (pre.foldl applyDerived df)).contains c) = true := by
    rw [allContains_iff]
    intro c hcmem
    exact mem_names_foldl_applyDerived pre df c
      ((allContains_iff _ _).mp hc c hcmem)
  have hstep : applyDerived (pre.foldl applyDerived df) s =
      setCol (pre.foldl applyDerived df) s.1 ⟨Dtype.numeric, s.2.2 df⟩ := by
    simp only [applyDerived]
    rw [if_pos hcond1, hval]
  rw [hstep]
  have hpost : s.1 ∉ post.map (fun s' => s'.1) := by
    have := h2
    rw [List.map_append, List.map_cons] at this
    have := this.of_append_right
    exact this.not_mem
  rw [getCol_foldl_applyDerived_ne post _ s.1 hpost, getCol_setCol_self]

lemma names_removeCol (df : Frame) (c : String) :
    names (removeCol df c) = (names df).filter (fun n => !(n == c)) := by
  induction df with
  | nil => rfl
  | cons p rest ih =>
    by_cases hp : p.1 = c <;>
      simp [removeCol, names, List.filter_cons, hp, ih] <;>
      simp [removeCol, names] at ih <;> exact ih

lemma mem_names_removeCol (df : Frame) (c n : String) :
    n ∈ names (removeCol df c) ↔ n ∈ names df ∧ n ≠ c := by
  rw [names_removeCol]
  simp [List.mem_filter]

end WaterQuality

namespace WaterQuality

/-- C2: `classify_wqi` partitions the line by the fixed thresholds:
Excellent iff wqi ≤ 25, Good iff 25 < wqi ≤ 50, Poor iff 50 < wqi ≤ 75,
Very Poor iff 75 < wqi ≤ 100, Unsuitable for Drinking iff wqi > 100;
with the six boundary evaluations from the spec. -/
theorem claim_C2_classify_step (wqi : ℚ) :
    (classify_wqi wqi = "Excellent" ↔ wqi ≤ 25) ∧
    (classify_wqi wqi = "Good" ↔ 25 < wqi ∧ wqi ≤ 50) ∧
    (classify_wqi wqi = "Poor" ↔ 50 < wqi ∧ wqi ≤ 75) ∧
    (classify_wqi wqi = "Very Poor" ↔ 75 < wqi ∧ wqi ≤ 100) ∧
    (classify_wqi wqi = "Unsuitable for Drinking" ↔ 100 < wqi) ∧
    classify_wqi 25 = "Excellent" ∧ classify_wqi 25.0001 = "Good" ∧
    classify_wqi 50 = "Good" ∧ classify_wqi 75 = "Poor" ∧
    classify_wqi 100 = "Very Poor" ∧
    classify_wqi 100.0001 = "Unsuitable for Drinking" := by
  refine ⟨?_, ?_, ?_, ?_, ?_, by norm_num [classify_wqi],
    by norm_num [classify_wqi], by norm_num [classify_wqi],
    by norm_num [classify_wqi], by norm_num [classify_wqi],
    by norm_num [classify_wqi]⟩ <;>
  · unfold classify_wqi
    split_ifs <;> simp_all <;> intros <;>
      first
        | linarith
        | exact ⟨by linarith, by linarith⟩

/-- Each summand of the MAPE mean is an absolute value, so the sum of the
ratio list is nonnegative. -/
lemma mapeRatios_sum_nonneg (a p : List ℚ) :
    0 ≤ (List.zipWith (fun x y => |(x - y) / (x + EPS)|) a p).sum := by
  induction a generalizing p with
  | nil => simp
  | cons x xs ih =>
    cases p with
    | nil => simp
    | cons y ys =>
      rw [List.zipWith_cons_cons, List.sum_cons]
      exact add_nonneg (abs_nonneg _) (ih ys)

/-- C7: for every test set (aligned nonempty actual/predicted lists), the
reported MAPE — mean of absolute epsilon-stabilized ratios times 100,
clipped to a maximum of 100 — lies in [0, 100]. -/
theorem claim_C7_mape_range (actual pred : List ℚ)
    (hlen : actual.length = pred.length) (hne : actual ≠ []) :
    0 ≤ mapeOf actual pred ∧ mapeOf actual pred ≤ 100 := by
  unfold mapeOf
  refine ⟨le_min (mul_nonneg (div_nonneg (mapeRatios_sum_nonneg actual pred)
    (Nat.cast_nonneg _)) (by norm_num)) (by norm_num), min_le_right _ _⟩

/-- Witness for C7 at the concrete test set actual = [30, 50],
pred = [28, 60]. -/
theorem claim_C7_mape_range_witness :
    0 ≤ mapeOf [30, 50] [28, 60] ∧ mapeOf [30, 50] [28, 60] ≤ 100 :=
  claim_C7_mape_range [30, 50] [28, 60] (by decide) (by decide)

/-- C1: the selector sorts the result records ascending by held-out test
RMSE (the sorted list is ordered and a permutation of the input) and picks
the first, which therefore attains the minimal RMSE; and on the spec's
concrete scenario — registry-ordered records with RMSEs
[3.1, 2.9, 4.0, 2.9, 3.5] — the stable sort makes the earlier record of
the pair tied at 2.9 (SVR) the winner. -/
theorem claim_C1_selector :
    (∀ results : List ModelResult, List.Sorted rmseLE (sortByRmse results)) ∧
    (∀ results : List ModelResult, List.Perm (sortByRmse results) results) ∧
    (∀ results : List ModelResult, ∀ w, select results = some w →
      w ∈ results ∧ ∀ r ∈ results, w.test_rmse ≤ r.test_rmse) ∧
    select tieRecords = some ⟨"SVR", 2.9⟩ := by
  refine ⟨fun results => List.sorted_insertionSort rmseLE results,
    fun results => List.perm_insertionSort rmseLE results, ?_,
    by norm_num [tieRecords, select, sortByRmse, List.insertionSort,
      List.orderedInsert, rmseLE]⟩
  intro results w hw
  have hs := List.sorted_insertionSort rmseLE results
  have hp : List.Perm (sortByRmse results) results := List.perm_insertionSort rmseLE results
  unfold select at hw
  obtain ⟨t, ht⟩ : ∃ t, sortByRmse results = w :: t := by
    cases hsh : sortByRmse results with
    | nil => rw [hsh] at hw; simp at hw
    | cons a t =>
      rw [hsh] at hw
      simp only [List.head?_cons, Option.some_inj] at hw
      exact ⟨t, by rw [hw]⟩
  constructor
  · exact hp.mem_iff.mp (ht ▸ List.mem_cons_self w t)
  · intro r hr
    have hr' : r ∈ sortByRmse results := hp.mem_iff.mpr hr
    rw [ht] at hr'
    rcases List.mem_cons.mp hr' with h | h
    · exact le_of_eq (by rw [h])
    · have hsorted := hs
      rw [sortByRmse] at ht
      rw [ht] at hsorted
      exact (List.sorted_cons.mp hsorted).1 r h

/-- Witness for C1's conditional conjunct, applied at the concrete tied
record list. -/
theorem claim_C1_selector_witness :
    (⟨"SVR", 2.9⟩ : ModelResult) ∈ tieRecords ∧
    ∀ r ∈ tieRecords, (⟨"SVR", 2.9⟩ : ModelResult).test_rmse ≤ r.test_rmse :=
  claim_C1_selector.2.2.1 tieRecords ⟨"SVR", 2.9⟩ claim_C1_selector.2.2.2

end WaterQuality

namespace WaterQuality

lemma filterMap_ne_nil_of_any_isSome (vals : List (Option ℚ))
    (h : vals.any (fun v => v.isSome) = true) : vals.filterMap id ≠ [] := by
  obtain ⟨v, hv, hs⟩ := List.any_eq_true.mp h
  cases v with
  | none => cases hs
  | some x =>
    intro hnil
    have hx : x ∈ vals.filterMap id :=
      List.mem_filterMap.mpr ⟨some x, hv, rfl⟩
    rw [hnil] at hx
    cases hx

lemma medianOf_isSome (l : List ℚ) (h : l ≠ []) :
    (medianOf l).isSome = true := by
  unfold medianOf
  have hlen : (List.insertionSort (· ≤ ·) l).length = l.length :=
    List.length_insertionSort _ l
  have hne : ¬(List.insertionSort (· ≤ ·) l).length = 0 := by
    rw [hlen]
    exact fun h0 => h (List.length_eq_zero.mp h0)
  rw [if_neg hne]
  split <;> rfl

lemma imputeVals_all_isSome (vals : List (Option ℚ))
    (h : vals.any (fun v => v.isSome) = true) :
    (imputeVals vals).all (fun v => v.isSome) = true := by
  unfold imputeVals
  by_cases hna : vals.any (fun v => v.isNone) = true
  · rw [if_pos hna]
    unfold fillnaVals
    have hmed := medianOf_isSome _ (filterMap_ne_nil_of_any_isSome vals h)
    cases hm : medianOf (vals.filterMap id) with
    | none => rw [hm] at hmed; cases hmed
    | some m => simp [List.all_eq_true]
  · rw [if_neg hna]
    rw [List.all_eq_true]
    intro v hv
    cases v with
    | some x => rfl
    | none => exact absurd (List.any_eq_true.mpr ⟨none, hv, rfl⟩) hna

/-- The branch structure of `preprocess` in training mode, as a plain
equation. -/
lemma preprocess_training_eq (log1p : ℚ → ℚ) (df : Frame) :
    preprocess log1p true df =
      if ((FEATURES ++ [TARGET]).filter
          (fun c => !((names (cleanStage df)).contains c))).isEmpty = true
      then Except.ok (addDerived log1p (imputeTarget (imputeFeatures (cleanStage df))))
      else Except.error ((FEATURES ++ [TARGET]).filter
          (fun c => !((names (cleanStage df)).contains c))) := rfl

/-- C3: in training mode, preprocessing fails exactly when some required
column (the eight canonical features or the target) is absent after
renaming and dropping, and the error payload is the full ordered list of
the absent required columns — every absent required column appears in it,
not just the first.  When all required columns are present, no validation
failure occurs. -/
theorem claim_C3_missing_columns (log1p : ℚ → ℚ) (df : Frame) :
    (∀ e, preprocess log1p true df = Except.error e →
      e = (FEATURES ++ [TARGET]).filter
          (fun c => !((names (cleanStage df)).contains c)) ∧
      e ≠ [] ∧
      (∀ c ∈ FEATURES ++ [TARGET], c ∉ names (cleanStage df) → c ∈ e)) ∧
    ((∀ c ∈ FEATURES ++ [TARGET], c ∈ names (cleanStage df)) →
      ∃ out, preprocess log1p true df = Except.ok out) := by
  constructor
  · intro e he
    rw [preprocess_training_eq] at he
    by_cases hm : ((FEATURES ++ [TARGET]).filter
        (fun c => !((names (cleanStage df)).contains c))).isEmpty = true
    · rw [if_pos hm] at he
      cases he
    · rw [if_neg hm] at he
      injection he with he'
      subst he'
      refine ⟨rfl, ?_, ?_⟩
      · intro hnil
        rw [hnil] at hm
        exact hm rfl
      · intro c hc habs
        refine List.mem_filter.mpr ⟨hc, ?_⟩
        have : (names (cleanStage df)).contains c = false := by
          rw [← Bool.not_eq_true]
          exact fun hh => habs ((contains_iff _ _).mp hh)
        rw [this]
        rfl
  · intro hall
    rw [preprocess_training_eq]
    have hm : ((FEATURES ++ [TARGET]).filter
        (fun c => !((names (cleanStage df)).contains c))).isEmpty = true := by
      have hnil : (FEATURES ++ [TARGET]).filter
          (fun c => !((names (cleanStage df)).contains c)) = [] := by
        rw [List.filter_eq_nil]
        intro c hc
        rw [(contains_iff _ _).mpr (hall c hc)]
        exact fun hh => by cases hh
      rw [hnil]
      rfl
    rw [if_pos hm]
    exact ⟨_, rfl⟩

/-- Witness for C3: the spec's concrete scenario — a dataset missing only
`Fluoride`, target required — fails naming exactly `["Fluoride"]`. -/
theorem claim_C3_missing_columns_witness :
    preprocess (fun x => x) true dfNoFluoride = Except.error ["Fluoride"] ∧
    (["Fluoride"] : List String) ≠ [] ∧
    "Fluoride" ∈ (["Fluoride"] : List String) := by
  have h := (claim_C3_missing_columns (fun x => x) dfNoFluoride).1
    ["Fluoride"] (by rfl)
  exact ⟨by rfl, h.2.1, h.2.2 "Fluoride" (by decide) (by decide)⟩

end WaterQuality

namespace WaterQuality

/-- C5 (amended): for every input table whose eight canonical feature
columns and target survive the clean stage with numeric dtype and at
least one non-missing value each (and with unique column names), the
training-mode feature engineer succeeds and returns these columns with
their NaN entries median-imputed: the resulting values are exactly
`imputeVals` of the cleaned values — a column with any missing value has
its missing entries replaced by the median of its own present values,
computed after all drops and before derived-feature construction, and a
column without missing values is untouched — so no NaN remains in the
canonical and target columns. -/
theorem claim_C5_imputation (log1p : ℚ → ℚ) (df : Frame)
    (hnd : (names (cleanStage df)).Nodup)
    (hreq : ∀ c ∈ FEATURES ++ [TARGET],
      ∃ col, getCol (cleanStage df) c = some col ∧
        col.values.any (fun v => v.isSome) = true) :
    ∃ out, preprocess log1p true df = Except.ok out ∧
      ∀ c ∈ FEATURES ++ [TARGET],
        getCol out c = (getCol (cleanStage df) c).map
          (fun col => { col with values := imputeVals col.values }) ∧
        (colVals out c).all (fun v => v.isSome) = true := by
  have _hnd := hnd
  have hmem : ∀ c ∈ FEATURES ++ [TARGET], c ∈ names (cleanStage df) := by
    intro c hc
    obtain ⟨col, hcol, _⟩ := hreq c hc
    by_contra hn
    rw [(getCol_eq_none _ _).mpr hn] at hcol
    cases hcol
  have hm : ((FEATURES ++ [TARGET]).filter
      (fun c => !((names (cleanStage df)).contains c))).isEmpty = true := by
    have hnil : (FEATURES ++ [TARGET]).filter
        (fun c => !((names (cleanStage df)).contains c)) = [] := by
      rw [List.filter_eq_nil]
      intro c hc
      rw [(contains_iff _ _).mpr (hmem c hc)]
      exact fun hh => by cases hh
    rw [hnil]
    rfl
  refine ⟨_, by rw [preprocess_training_eq, if_pos hm], ?_⟩
  intro c hc
  have himp : getCol (imputeTarget (imputeFeatures (cleanStage df))) c =
      (getCol (cleanStage df) c).map
        (fun col => { col with values := imputeVals col.values }) := by
    rcases List.mem_append.mp hc with hcF | hcT
    · have hcne : c ≠ TARGET := by
        have hforall : ∀ x ∈ FEATURES, x ≠ TARGET := by decide
        exact hforall c hcF
      rw [imputeTarget, getCol_imputeCol_ne _ _ _ hcne, imputeFeatures,
        getCol_foldl_imputeCol_mem FEATURES (cleanStage df) c hcF (by decide)]
    · rcases List.mem_singleton.mp hcT with rfl
      rw [imputeTarget, getCol_imputeCol_self, imputeFeatures,
        getCol_foldl_imputeCol_notMem FEATURES (cleanStage df) TARGET (by decide)]
  have hder : getCol (addDerived log1p (imputeTarget (imputeFeatures (cleanStage df)))) c =
      getCol (imputeTarget (imputeFeatures (cleanStage df))) c := by
    refine getCol_foldl_applyDerived_ne _ _ _ ?_
    have hfst : (derivedDefs log1p).map (fun s => s.1) = derivedNames := rfl
    rw [hfst]
    have hforall : ∀ x ∈ FEATURES ++ [TARGET], x ∉ derivedNames := by decide
    exact hforall c hc
  obtain ⟨col, hcol, hsome⟩ := hreq c hc
  have hvals : colVals (addDerived log1p (imputeTarget (imputeFeatures (cleanStage df)))) c =
      imputeVals col.values := by
    rw [colVals, hder, himp, hcol]
    rfl
  exact ⟨by rw [hder, himp], by rw [hvals]; exact imputeVals_all_isSome col.values hsome⟩

/-- Counterexample for C5 as stated: `dfNaNFluoride` contains all eight
canonical feature columns and the target, all of numeric dtype, yet the
training-mode feature engineer succeeds and returns a `Fluoride` column
that still consists of NaN (an all-NaN column has NaN median, and filling
with NaN changes nothing), so the output does not have zero NaN values in
the canonical columns. -/
theorem claim_C5_counterexample :
    names dfNaNFluoride = FEATURES ++ [TARGET] ∧
    dfNaNFluoride.all (fun p => p.2.dtype == Dtype.numeric) = true ∧
    (okFrame (preprocess (fun x => x) true dfNaNFluoride)).map
      (fun out => colVals out "Fluoride") = some [none] := ⟨rfl, rfl, rfl⟩

/-- Witness for C5's amended theorem at the concrete table `dfFull`. -/
theorem claim_C5_imputation_witness :
    ∃ out, preprocess (fun x => x) true dfFull = Except.ok out ∧
      ∀ c ∈ FEATURES ++ [TARGET],
        getCol out c = (getCol (cleanStage dfFull) c).map
          (fun col => { col with values := imputeVals col.values }) ∧
        (colVals out c).all (fun v => v.isSome) = true :=
  claim_C5_imputation (fun x => x) dfFull (by decide)
    (by intro c hc; fin_cases hc <;> exact ⟨_, rfl, rfl⟩)

end WaterQuality

namespace WaterQuality

lemma colVals_congr (df' df : Frame) (c : String)
    (h : getCol df' c = getCol df c) : colVals df' c = colVals df c := by
  unfold colVals
  rw [h]

lemma getCol_foldl_applyDerived_produced_mem
    (ss : List (String × List String × (Frame → List (Option ℚ))))
    (s : String × List String × (Frame → List (Option ℚ)))
    (df : Frame) (hmem : s ∈ ss)
    (h2 : (ss.map (fun s => s.1)).Nodup)
    (h3 : ∀ c ∈ s.2.1, c ∉ ss.map (fun s' => s'.1))
    (hform : ∀ df' : Frame,
      (∀ c, c ∉ ss.map (fun s' => s'.1) → getCol df' c = getCol df c) →
        s.2.2 df' = s.2.2 df)
    (hc : s.2.1.all (fun c => (names df).contains c) = true) :
    getCol (ss.foldl applyDerived df) s.1 = some ⟨Dtype.numeric, s.2.2 df⟩ := by
  obtain ⟨pre, post, rfl⟩ := List.append_of_mem hmem
  exact getCol_foldl_applyDerived_produced pre post s df h2 h3 hform hc

lemma derivedDefs_map_fst (log1p : ℚ → ℚ) :
    (derivedDefs log1p).map (fun s => s.1) = derivedNames := rfl

lemma derivedDefs_prereqs_not_derived (log1p : ℚ → ℚ) :
    ∀ s ∈ derivedDefs log1p, ∀ c ∈ s.2.1,
      c ∉ (derivedDefs log1p).map (fun s => s.1) := by
  rw [derivedDefs_map_fst]
  intro s hs
  simp only [derivedDefs, List.mem_cons, List.not_mem_nil, or_false] at hs
  rcases hs with rfl | rfl | rfl | rfl | rfl | rfl | rfl | rfl <;>
    (dsimp only; decide)

/-- A derived column name appears after the derived-feature block exactly
when all its prerequisite canonical columns are present in the input
frame (for frames that do not already use derived names). -/
lemma derived_presence_iff (log1p : ℚ → ℚ) (df : Frame)
    (hfresh : ∀ n ∈ derivedNames, n ∉ names df) :
    ∀ s ∈ derivedDefs log1p,
      (s.1 ∈ names (addDerived log1p df) ↔ ∀ c ∈ s.2.1, c ∈ names df) := by
  intro s hs
  have h1 : ∀ n ∈ (derivedDefs log1p).map (fun s => s.1), n ∉ names df := by
    rw [derivedDefs_map_fst]
    exact hfresh
  have h2 : ((derivedDefs log1p).map (fun s => s.1)).Nodup := by
    rw [derivedDefs_map_fst]
    decide
  have h3 := derivedDefs_prereqs_not_derived log1p
  rw [addDerived, names_foldl_applyDerived (derivedDefs log1p) df h1 h2 h3,
    List.mem_append]
  have hsname : s.1 ∈ derivedNames := by
    rw [← derivedDefs_map_fst log1p]
    exact List.mem_map_of_mem _ hs
  have hnotdf : s.1 ∉ names df := hfresh s.1 hsname
  constructor
  · rintro (h | h)
    · exact absurd h hnotdf
    · obtain ⟨s', hs'mem, hs'eq⟩ := List.mem_map.mp h
      have hs'filter := List.mem_filter.mp hs'mem
      have heq : s' = s := List.inj_on_of_nodup_map h2 hs'filter.1 hs hs'eq
      rw [heq] at hs'filter
      exact (allContains_iff _ _).mp hs'filter.2
  · intro h
    exact Or.inr (List.mem_map.mpr
      ⟨s, List.mem_filter.mpr ⟨hs, (allContains_iff _ _).mpr h⟩, rfl⟩)

end WaterQuality

namespace WaterQuality

/-- C6 (amended: the code derives eight columns, not seven): derived
columns are produced exactly when all their prerequisite canonical
columns are present, so presence is monotonic in input completeness —
removing one column removes exactly the derived columns depending on it;
each produced derived column equals its elementwise formula evaluated on
the input frame, ratio features dividing by denominator + 1 and log
features applying `log1p` (x ↦ log(1 + x)). -/
theorem claim_C6_derived (log1p : ℚ → ℚ) (df : Frame)
    (hfresh : ∀ n ∈ derivedNames, n ∉ names df) :
    (∀ s ∈ derivedDefs log1p,
      (s.1 ∈ names (addDerived log1p df) ↔ ∀ c ∈ s.2.1, c ∈ names df)) ∧
    (∀ x : String, ∀ s ∈ derivedDefs log1p,
      (s.1 ∈ names (addDerived log1p (removeCol df x)) ↔
        ((∀ c ∈ s.2.1, c ∈ names df) ∧ x ∉ s.2.1))) ∧
    (∀ s ∈ derivedDefs log1p, (∀ c ∈ s.2.1, c ∈ names df) →
      getCol (addDerived log1p df) s.1 = some ⟨Dtype.numeric, s.2.2 df⟩) ∧
    (("TDS" ∈ names df ∧ "Conductivity" ∈ names df) →
      colVals (addDerived log1p df) "TDS_Conductivity_ratio" =
        List.zipWith (omap2 (fun a b => a / (b + 1)))
          (colVals df "TDS") (colVals df "Conductivity")) ∧
    ("TDS" ∈ names df →
      colVals (addDerived log1p df) "TDS_log" =
        (colVals df "TDS").map (omap log1p)) := by
  have h2 : ((derivedDefs log1p).map (fun s => s.1)).Nodup := by
    rw [derivedDefs_map_fst]
    decide
  have hC : ∀ s ∈ derivedDefs log1p, (∀ c ∈ s.2.1, c ∈ names df) →
      getCol (addDerived log1p df) s.1 = some ⟨Dtype.numeric, s.2.2 df⟩ := by
    intro s hs hpre
    rw [addDerived]
    refine getCol_foldl_applyDerived_produced_mem (derivedDefs log1p) s df hs h2
      (derivedDefs_prereqs_not_derived log1p s hs) ?_
      ((allContains_iff _ _).mpr hpre)
    simp only [derivedDefs, List.mem_cons, List.not_mem_nil, or_false] at hs
    rcases hs with rfl | rfl | rfl | rfl | rfl | rfl | rfl | rfl
    · intro df' hdf'
      dsimp only
      rw [colVals_congr df' df "pH" (hdf' _ (by rw [derivedDefs_map_fst]; decide)),
        colVals_congr df' df "Temp" (hdf' _ (by rw [derivedDefs_map_fst]; decide))]
    · intro df' hdf'
      dsimp only
      rw [colVals_congr df' df "TDS" (hdf' _ (by rw [derivedDefs_map_fst]; decide)),
        colVals_congr df' df "Conductivity" (hdf' _ (by rw [derivedDefs_map_fst]; decide))]
    · intro df' hdf'
      dsimp only
      rw [colVals_congr df' df "Fecal_Coliform" (hdf' _ (by rw [derivedDefs_map_fst]; decide)),
        colVals_congr df' df "Total_Coliform" (hdf' _ (by rw [derivedDefs_map_fst]; decide))]
    · intro df' hdf'
      dsimp only
      rw [colVals_congr df' df "Fecal_Coliform" (hdf' _ (by rw [derivedDefs_map_fst]; decide))]
    · intro df' hdf'
      dsimp only
      rw [colVals_congr df' df "Total_Coliform" (hdf' _ (by rw [derivedDefs_map_fst]; decide))]
    · intro df' hdf'
      dsimp only
      rw [colVals_congr df' df "TDS" (hdf' _ (by rw [derivedDefs_map_fst]; decide))]
    · intro df' hdf'
      dsimp only
      rw [colVals_congr df' df "pH" (hdf' _ (by rw [derivedDefs_map_fst]; decide))]
    · intro df' hdf'
      dsimp only
      rw [colVals_congr df' df "Temp" (hdf' _ (by rw [derivedDefs_map_fst]; decide))]
  refine ⟨derived_presence_iff log1p df hfresh, ?_, hC, ?_, ?_⟩
  · intro x s hs
    have hfresh' : ∀ n ∈ derivedNames, n ∉ names (removeCol df x) :=
      fun n hn hmem => hfresh n hn ((mem_names_removeCol df x n).mp hmem).1
    rw [derived_presence_iff log1p (removeCol df x) hfresh' s hs]
    constructor
    · intro h
      refine ⟨fun c hc => ((mem_names_removeCol df x c).mp (h c hc)).1, ?_⟩
      intro hx
      exact ((mem_names_removeCol df x x).mp (h x hx)).2 rfl
    · rintro ⟨hall, hx⟩ c hc
      exact (mem_names_removeCol df x c).mpr
        ⟨hall c hc, fun hcx => hx (hcx ▸ hc)⟩
  · rintro ⟨hT, hCo⟩
    have hmem : ("TDS_Conductivity_ratio", ["TDS", "Conductivity"], fun df =>
        List.zipWith (omap2 (fun a b => a / (b + 1)))
          (colVals df "TDS") (colVals df "Conductivity")) ∈ derivedDefs log1p :=
      List.mem_cons_of_mem _ (List.mem_cons_self _ _)
    have h := hC _ hmem (by
      intro c hc
      dsimp only at hc
      rcases List.mem_cons.mp hc with rfl | hc
      · exact hT
      · rcases List.mem_singleton.mp hc with rfl
        exact hCo)
    dsimp only at h
    rw [colVals, h]
    rfl
  · intro hT
    have hmem : ("TDS_log", ["TDS"], fun df =>
        (colVals df "TDS").map (omap log1p)) ∈ derivedDefs log1p := by
      simp [derivedDefs]
    have h := hC _ hmem (by
      intro c hc
      dsimp only at hc
      rcases List.mem_singleton.mp hc with rfl
      exact hT)
    dsimp only at h
    rw [colVals, h]
    rfl

/-- Counterexample to C6 as stated: on a fully populated input the
derived-feature block appends exactly the eight listed derived columns —
the claim's count of "seven" derived columns is wrong. -/
theorem claim_C6_counterexample :
    names (addDerived (fun x => x) (cleanStage dfFull)) =
      FEATURES ++ [TARGET] ++ derivedNames ∧
    derivedNames.length = 8 ∧ ¬derivedNames.length = 7 :=
  ⟨rfl, rfl, by decide⟩

/-- Witness for C6's amended theorem at the concrete cleaned table
`cleanStage dfFull`, exercising the presence rule, the removal rule, and
the two explicit formulas. -/
theorem claim_C6_derived_witness :
    (∀ s ∈ derivedDefs (fun x => x),
      (s.1 ∈ names (addDerived (fun x => x) (cleanStage dfFull)) ↔
        ∀ c ∈ s.2.1, c ∈ names (cleanStage dfFull))) ∧
    (∀ x : String, ∀ s ∈ derivedDefs (fun y => y),
      (s.1 ∈ names (addDerived (fun y => y) (removeCol (cleanStage dfFull) x)) ↔
        ((∀ c ∈ s.2.1, c ∈ names (cleanStage dfFull)) ∧ x ∉ s.2.1))) ∧
    (∀ s ∈ derivedDefs (fun x => x),
      (∀ c ∈ s.2.1, c ∈ names (cleanStage dfFull)) →
      getCol (addDerived (fun x => x) (cleanStage dfFull)) s.1 =
        some ⟨Dtype.numeric, s.2.2 (cleanStage dfFull)⟩) ∧
    (("TDS" ∈ names (cleanStage dfFull) ∧
        "Conductivity" ∈ names (cleanStage dfFull)) →
      colVals (addDerived (fun x => x) (cleanStage dfFull))
          "TDS_Conductivity_ratio" =
        List.zipWith (omap2 (fun a b => a / (b + 1)))
          (colVals (cleanStage dfFull) "TDS")
          (colVals (cleanStage dfFull) "Conductivity")) ∧
    ("TDS" ∈ names (cleanStage dfFull) →
      colVals (addDerived (fun x => x) (cleanStage dfFull)) "TDS_log" =
        (colVals (cleanStage dfFull) "TDS").map (omap (fun x => x))) :=
  claim_C6_derived (fun x => x) (cleanStage dfFull) (by decide)

end WaterQuality

namespace WaterQuality

lemma lexLt_irrefl (l : List Char) : lexLt l l = false := by
  induction l with
  | nil => rfl
  | cons a as ih => simp [lexLt, ih]

lemma lexLt_trans :
    ∀ (a b c : List Char), lexLt a b = true → lexLt b c = true →
      lexLt a c = true := by
  intro a
  induction a with
  | nil =>
    intro b c hab hbc
    cases b with
    | nil => cases hab
    | cons b bs =>
      cases c with
      | nil => cases hbc
      | cons c cs => rfl
  | cons a as ih =>
    intro b c hab hbc
    cases b with
    | nil => cases hab
    | cons b bs =>
      cases c with
      | nil => cases hbc
      | cons c cs =>
        simp only [lexLt] at hab hbc ⊢
        by_cases hab1 : a = b <;> by_cases hbc1 : b = c
        · subst hab1; subst hbc1
          rw [if_pos rfl] at hab hbc ⊢
          exact ih bs cs hab hbc
        · subst hab1
          rw [if_pos rfl] at hab
          rw [if_neg hbc1] at hbc ⊢
          exact hbc
        · subst hbc1
          rw [if_neg hab1] at hab ⊢
          exact hab
        · rw [if_neg hab1] at hab
          rw [if_neg hbc1] at hbc
          have hab' : a < b := of_decide_eq_true hab
          have hbc' : b < c := of_decide_eq_true hbc
          have hac : a < c := lt_trans hab' hbc'
          have hac1 : ¬a = c := fun h => absurd (h ▸ hac) (lt_irrefl c)
          rw [if_neg hac1]
          exact decide_eq_true hac
  
lemma lexLt_trichotomy (a b : List Char) :
    lexLt a b = true ∨ a = b ∨ lexLt b a = true := by
  induction a generalizing b with
  | nil =>
    cases b with
    | nil => exact Or.inr (Or.inl rfl)
    | cons b bs => exact Or.inl rfl
  | cons a as ih =>
    cases b with
    | nil => exact Or.inr (Or.inr rfl)
    | cons b bs =>
      by_cases hab : a = b
      · subst hab
        rcases ih bs with h | h | h
        · exact Or.inl (by simp [lexLt, h])
        · exact Or.inr (Or.inl (by rw [h]))
        · exact Or.inr (Or.inr (by simp [lexLt, h]))
      · rcases lt_trichotomy a b with h | h | h
        · exact Or.inl (by simp [lexLt, hab, h])
        · exact absurd h hab
        · refine Or.inr (Or.inr ?_)
          have hba : ¬b = a := fun hh => hab hh.symm
          simp [lexLt, hba, h]

lemma fileLt_trans (a b c : String) (hab : fileLt a b = true)
    (hbc : fileLt b c = true) : fileLt a c = true :=
  lexLt_trans a.data b.data c.data hab hbc

/-- The fold that models `sort(reverse=True)` + `[0]` returns an element
of the candidate list that no candidate strictly exceeds. -/
lemma maxFileFrom_spec (f : String) (rest : List String) :
    maxFileFrom f rest ∈ f :: rest ∧
    ∀ g ∈ f :: rest, fileLt (maxFileFrom f rest) g = false := by
  induction rest generalizing f with
  | nil =>
    refine ⟨List.mem_cons_self f [], ?_⟩
    intro g hg
    rcases List.mem_cons.mp hg with rfl | hg
    · exact lexLt_irrefl _
    · cases hg
  | cons g rest' ih =>
    have hstep : maxFileFrom f (g :: rest') =
        maxFileFrom (if fileLt f g then g else f) rest' := rfl
    by_cases hfg : fileLt f g = true
    · rw [hstep, if_pos hfg]
      obtain ⟨hmem, hmax⟩ := ih g
      refine ⟨?_, ?_⟩
      · rcases List.mem_cons.mp hmem with h | h
        · rw [h]
          exact List.mem_cons_of_mem f (List.mem_cons_self g rest')
        · exact List.mem_cons_of_mem f (List.mem_cons_of_mem g h)
      · intro x hx
        rcases List.mem_cons.mp hx with rfl | hx
        · by_contra hlt
          rw [Bool.not_eq_false] at hlt
          have : fileLt (maxFileFrom g rest') g = true :=
            fileLt_trans _ _ _ hlt hfg
          rw [hmax g (List.mem_cons_self g rest')] at this
          cases this
        · exact hmax x hx
    · rw [hstep, if_neg hfg]
      rw [Bool.not_eq_true] at hfg
      obtain ⟨hmem, hmax⟩ := ih f
      refine ⟨?_, ?_⟩
      · rcases List.mem_cons.mp hmem with h | h
        · rw [h]
          exact List.mem_cons_self f _
        · exact List.mem_cons_of_mem f (List.mem_cons_of_mem g h)
      · intro x hx
        rcases List.mem_cons.mp hx with rfl | hx
        · exact hmax x (List.mem_cons_self x rest')
        · rcases List.mem_cons.mp hx with rfl | hx
          · by_contra hlt
            rw [Bool.not_eq_false] at hlt
            have hmf : fileLt (maxFileFrom f rest') f = false :=
              hmax f (List.mem_cons_self f rest')
            rcases lexLt_trichotomy f.data x.data with h | h | h
            · rw [show fileLt f x = true from h] at hfg
              cases hfg
            · unfold fileLt at hlt hmf
              rw [← h] at hlt
              rw [hlt] at hmf
              cases hmf
            · have : fileLt (maxFileFrom f rest') f = true :=
                fileLt_trans _ _ _ hlt h
              rw [hmf] at this
              cases this
          · exact hmax x (List.mem_cons_of_mem f hx)

/-- C8: for every prediction request naming a model, artifact resolution
fails with the `ModelNotFound` error exactly when no persisted file has
prefix `{modelName}_model_` and suffix `.pkl`; otherwise the resolved
file is a matching file that no matching file lexicographically exceeds
(the greatest filename, i.e. the newest under the timestamp naming
scheme); and prediction produces one output per input row. -/
theorem claim_C8_predictor_artifact :
    (∀ (files : List String) (modelName : String),
      (files.filter (modelFileMatches modelName) = [] ↔
        latestModelFile files modelName =
          Except.error ("No trained model found for " ++ modelName))) ∧
    (∀ (files : List String) (modelName f : String),
      latestModelFile files modelName = Except.ok f →
      f ∈ files ∧ modelFileMatches modelName f = true ∧
      ∀ g ∈ files, modelFileMatches modelName g = true →
        fileLt f g = false) ∧
    (∀ (model : List ℚ → ℚ) (rows : List (List ℚ)),
      (predictRows model rows).length = rows.length) := by
  refine ⟨?_, ?_, fun model rows => List.length_map rows model⟩
  · intro files modelName
    unfold latestModelFile
    cases hf : files.filter (modelFileMatches modelName) with
    | nil => exact ⟨fun _ => rfl, fun _ => rfl⟩
    | cons f0 rest =>
      constructor
      · intro h
        cases h
      · intro h
        cases h
  · intro files modelName f h
    unfold latestModelFile at h
    cases hf : files.filter (modelFileMatches modelName) with
    | nil =>
      rw [hf] at h
      cases h
    | cons f0 rest =>
      rw [hf] at h
      injection h with h
      obtain ⟨hmem, hmax⟩ := maxFileFrom_spec f0 rest
      rw [h] at hmem hmax
      rw [← hf] at hmem
      have hmf := List.mem_filter.mp hmem
      refine ⟨hmf.1, hmf.2, ?_⟩
      intro g hg hgm
      exact hmax g (hf ▸ List.mem_filter.mpr ⟨hg, hgm⟩)

/-- Witness for C8 at a concrete model folder: two XGBoost artifacts and
one Ridge artifact; XGBoost resolves to its newest artifact, which the
theorem certifies as matching and maximal, and SVR has no artifact. -/
theorem claim_C8_predictor_artifact_witness :
    ("XGBoost_model_20240202_000000.pkl" ∈
        ["Ridge_model_20240101_000000.pkl", "XGBoost_model_20240101_000000.pkl",
         "XGBoost_model_20240202_000000.pkl", "notes.txt"] ∧
      modelFileMatches "XGBoost" "XGBoost_model_20240202_000000.pkl" = true ∧
      ∀ g ∈ ["Ridge_model_20240101_000000.pkl", "XGBoost_model_20240101_000000.pkl",
             "XGBoost_model_20240202_000000.pkl", "notes.txt"],
        modelFileMatches "XGBoost" g = true →
        fileLt "XGBoost_model_20240202_000000.pkl" g = false) ∧
    latestModelFile ["Ridge_model_20240101_000000.pkl"] "SVR" =
      Except.error ("No trained model found for " ++ "SVR") :=
  ⟨claim_C8_predictor_artifact.2.1
      ["Ridge_model_20240101_000000.pkl", "XGBoost_model_20240101_000000.pkl",
       "XGBoost_model_20240202_000000.pkl", "notes.txt"]
      "XGBoost" "XGBoost_model_20240202_000000.pkl" rfl,
   (claim_C8_predictor_artifact.1 ["Ridge_model_20240101_000000.pkl"] "SVR").mp rfl⟩

end WaterQuality

namespace WaterQuality

/-- C9: once the filename checks pass, `train_models` purges every
persisted artifact and results file before the uploaded dataset is parsed
or validated, so a request whose CSV lacks the WQI column is rejected
with an error while leaving both folders empty — and any subsequent
prediction request then fails with the `ModelNotFound` error. -/
theorem claim_C9_purge_before_validation (store : StoreState)
    (req : TrainRequest) (hname : req.filename ≠ "")
    (hallowed : allowed_file req.filename = true)
    (hnowqi : TARGET ∉ req.csvColumns) :
    trainEndpoint store req = (TrainResponse.errNoWQI, ⟨[], []⟩) ∧
    ∀ modelName : String,
      latestModelFile (trainEndpoint store req).2.models modelName =
        Except.error ("No trained model found for " ++ modelName) := by
  have hcont : req.csvColumns.contains TARGET = false := by
    rw [← Bool.not_eq_true]
    exact fun h => hnowqi ((contains_iff _ _).mp h)
  have h1 : trainEndpoint store req = (TrainResponse.errNoWQI, ⟨[], []⟩) := by
    unfold trainEndpoint
    rw [if_neg hname, if_neg (by rw [hallowed]; simp), if_pos (by rw [hcont]; rfl)]
  refine ⟨h1, fun modelName => ?_⟩
  rw [h1]
  rfl

/-- Witness for C9: a store holding a Ridge artifact, an acceptable
`data.csv` upload whose table has the eight features but no WQI column. -/
theorem claim_C9_purge_before_validation_witness :
    trainEndpoint storeWithArtifacts reqNoWQI =
      (TrainResponse.errNoWQI, ⟨[], []⟩) ∧
    ∀ modelName : String,
      latestModelFile (trainEndpoint storeWithArtifacts reqNoWQI).2.models
          modelName =
        Except.error ("No trained model found for " ++ modelName) :=
  claim_C9_purge_before_validation storeWithArtifacts reqNoWQI
    (by decide) (by decide) (by decide)

lemma loopModels_all_ok (fit : String → Except String Unit) :
    ∀ (ns : List String) (idx total : ℕ) (ts : TrainingState),
    (∀ m ∈ ns, fit m = Except.ok ()) →
    (loopModels fit total idx ns ts).2 = none ∧
    (loopModels fit total idx ns ts).1.models_trained =
      ts.models_trained ++ ns := by
  intro ns
  induction ns with
  | nil =>
    intro idx total ts h
    exact ⟨rfl, (List.append_nil _).symm⟩
  | cons n rest ih =>
    intro idx total ts h
    have hn : fit n = Except.ok () := h n (List.mem_cons_self n rest)
    have htl : ∀ m ∈ rest, fit m = Except.ok () :=
      fun m hm => h m (List.mem_cons_of_mem n hm)
    simp only [loopModels, hn]
    refine ⟨(ih _ _ _ htl).1, ?_⟩
    rw [(ih _ _ _ htl).2]
    simp

lemma loopModels_fail (fit : String → Except String Unit) (n e : String)
    (hn : fit n = Except.error e) :
    ∀ (pre : List String) (post : List String) (idx total : ℕ)
      (ts : TrainingState),
    (∀ m ∈ pre, fit m = Except.ok ()) →
    (loopModels fit total idx (pre ++ n :: post) ts).2 = some e ∧
    (loopModels fit total idx (pre ++ n :: post) ts).1.models_trained =
      ts.models_trained ++ pre := by
  intro pre
  induction pre with
  | nil =>
    intro post idx total ts _
    simp [loopModels, hn]
  | cons m pre' ih =>
    intro post idx total ts hpre
    have hm : fit m = Except.ok () := hpre m (List.mem_cons_self m pre')
    have htl : ∀ x ∈ pre', fit x = Except.ok () :=
      fun x hx => hpre x (List.mem_cons_of_mem m hx)
    simp only [List.cons_append, loopModels, hm, List.append_eq]
    refine ⟨(ih _ _ _ _ htl).1, ?_⟩
    rw [(ih _ _ _ _ htl).2]
    simp

/-- C4 (amended): if some model's fit raises, the whole run aborts — the
training summary and latest-training record are not persisted — and the
surfaced error is exactly the underlying exception message (the
originating model's name is not attached to it); the in-progress flag is
cleared on both the failure path and the success path (where the run
record is persisted). -/
theorem claim_C4_failure_abort (fit : String → Except String Unit)
    (ts : TrainingState) :
    (∀ (pre post : List String) (n e : String),
      MODEL_NAMES = pre ++ n :: post →
      (∀ m ∈ pre, fit m = Except.ok ()) → fit n = Except.error e →
      (trainLoop fit ts).1 = Except.error e ∧
      (trainLoop fit ts).2.2 = false ∧
      (trainLoop fit ts).2.1.is_training = false) ∧
    ((∀ m ∈ MODEL_NAMES, fit m = Except.ok ()) →
      (trainLoop fit ts).1 = Except.ok () ∧
      (trainLoop fit ts).2.2 = true ∧
      (trainLoop fit ts).2.1.is_training = false) := by
  constructor
  · intro pre post n e hsplit hpre hn
    have hl := loopModels_fail fit n e hn pre post 0 MODEL_NAMES.length
      { ts with is_training := true } hpre
    rw [← hsplit] at hl
    unfold trainLoop
    cases hres : loopModels fit MODEL_NAMES.length 0 MODEL_NAMES
        { ts with is_training := true } with
    | mk ts1 r =>
      rw [hres] at hl
      cases r with
      | none => exact absurd hl.1 (by simp)
      | some e' =>
        have he : e' = e := by
          have := hl.1
          simp at this
          exact this
        subst he
        exact ⟨rfl, rfl, rfl⟩
  · intro hall
    have hl := loopModels_all_ok fit MODEL_NAMES 0 MODEL_NAMES.length
      { ts with is_training := true } hall
    unfold trainLoop
    cases hres : loopModels fit MODEL_NAMES.length 0 MODEL_NAMES
        { ts with is_training := true } with
    | mk ts1 r =>
      rw [hres] at hl
      cases r with
      | none => exact ⟨rfl, rfl, rfl⟩
      | some e' => exact absurd hl.1 (by simp)

/-- Counterexample to C4 as stated: when SVR's fit raises `"boom"`, the
surfaced error is exactly `"boom"`; no registry model name — in
particular not `"SVR"`, the originating model — occurs anywhere in the
surfaced error, so the failure does not carry the originating model's
name. -/
theorem claim_C4_counterexample :
    (trainLoop fitBoomSVR initState).1 = Except.error "boom" ∧
    fitBoomSVR "SVR" = Except.error "boom" ∧
    MODEL_NAMES.all (fun n => !(containsSubstr "boom" n)) = true :=
  ⟨rfl, rfl, by decide⟩

/-- Witness for C4's amended theorem: the failure path at `fitBoomSVR`
(SVR raises after Ridge completes) and the success path at `fitOk`. -/
theorem claim_C4_failure_abort_witness :
    ((trainLoop fitBoomSVR initState).1 = Except.error "boom" ∧
      (trainLoop fitBoomSVR initState).2.2 = false ∧
      (trainLoop fitBoomSVR initState).2.1.is_training = false) ∧
    ((trainLoop fitOk initState).1 = Except.ok () ∧
      (trainLoop fitOk initState).2.2 = true ∧
      (trainLoop fitOk initState).2.1.is_training = false) :=
  ⟨(claim_C4_failure_abort fitBoomSVR initState).1 ["Ridge"]
      ["RandomForest", "GradientBoosting", "XGBoost"] "SVR" "boom" rfl
      (by intro m hm; rcases List.mem_singleton.mp hm with rfl; rfl) rfl,
   (claim_C4_failure_abort fitOk initState).2 (fun m _ => rfl)⟩

lemma trainLoop_ok_models (fit : String → Except String Unit)
    (ts : TrainingState) (hall : ∀ m ∈ MODEL_NAMES, fit m = Except.ok ()) :
    (trainLoop fit ts).2.1.models_trained =
      ts.models_trained ++ MODEL_NAMES := by
  have hl := loopModels_all_ok fit MODEL_NAMES 0 MODEL_NAMES.length
    { ts with is_training := true } hall
  unfold trainLoop
  cases hres : loopModels fit MODEL_NAMES.length 0 MODEL_NAMES
      { ts with is_training := true } with
  | mk ts1 r =>
    rw [hres] at hl
    cases r with
    | none => exact hl.2
    | some e' => exact absurd hl.1 (by simp)

/-- C10: `models_trained` is never reset — every run appends the names of
the models it completes to the process-wide list: a fully successful run
appends all five registry names, `k` successful runs from the initial
state leave exactly 5k entries, and a run that fails partway appends
exactly the names completed before the failure while leaving the earlier
contents intact. -/
theorem claim_C10_models_trained_accumulates :
    (∀ (fit : String → Except String Unit) (ts : TrainingState),
      (∀ m ∈ MODEL_NAMES, fit m = Except.ok ()) →
      (trainLoop fit ts).2.1.models_trained =
        ts.models_trained ++ MODEL_NAMES) ∧
    (∀ k : ℕ,
      (iterateRuns fitOk k initState).models_trained.length = 5 * k) ∧
    (∀ (fit : String → Except String Unit) (ts : TrainingState)
      (pre post : List String) (n e : String),
      MODEL_NAMES = pre ++ n :: post →
      (∀ m ∈ pre, fit m = Except.ok ()) → fit n = Except.error e →
      (trainLoop fit ts).2.1.models_trained = ts.models_trained ++ pre) := by
  refine ⟨fun fit ts hall => trainLoop_ok_models fit ts hall, ?_, ?_⟩
  · have haux : ∀ (k : ℕ) (ts : TrainingState),
        (iterateRuns fitOk k ts).models_trained.length =
          ts.models_trained.length + 5 * k := by
      intro k
      induction k with
      | zero => intro ts; simp [iterateRuns]
      | succ k ih =>
        intro ts
        have hstep : (trainLoop fitOk ts).2.1.models_trained =
            ts.models_trained ++ MODEL_NAMES :=
          trainLoop_ok_models fitOk ts (fun m _ => rfl)
        calc (iterateRuns fitOk (k + 1) ts).models_trained.length
            = (iterateRuns fitOk k (trainLoop fitOk ts).2.1).models_trained.length := rfl
          _ = (trainLoop fitOk ts).2.1.models_trained.length + 5 * k := ih _
          _ = ts.models_trained.length + 5 * (k + 1) := by
              rw [hstep, List.length_append,
                show MODEL_NAMES.length = 5 from rfl]
              ring
    intro k
    have := haux k initState
    simpa [initState] using this
  · intro fit ts pre post n e hsplit hpre hn
    have hl := loopModels_fail fit n e hn pre post 0 MODEL_NAMES.length
      { ts with is_training := true } hpre
    rw [← hsplit] at hl
    unfold trainLoop
    cases hres : loopModels fit MODEL_NAMES.length 0 MODEL_NAMES
        { ts with is_training := true } with
    | mk ts1 r =>
      rw [hres] at hl
      cases r with
      | none => exact absurd hl.1 (by simp)
      | some e' => exact hl.2

/-- Witness for C10: one successful run appends the five names, two
successful runs reach 10 entries, and a run failing at SVR retains
exactly `["Ridge"]`. -/
theorem claim_C10_models_trained_witness :
    (trainLoop fitOk initState).2.1.models_trained = [] ++ MODEL_NAMES ∧
    (iterateRuns fitOk 2 initState).models_trained.length = 5 * 2 ∧
    (trainLoop fitBoomSVR initState).2.1.models_trained = [] ++ ["Ridge"] :=
  ⟨claim_C10_models_trained_accumulates.1 fitOk initState (fun m _ => rfl),
   claim_C10_models_trained_accumulates.2.1 2,
   claim_C10_models_trained_accumulates.2.2 fitBoomSVR initState ["Ridge"]
     ["RandomForest", "GradientBoosting", "XGBoost"] "SVR" "boom" rfl
     (by intro m hm; rcases List.mem_singleton.mp hm with rfl; rfl) rfl⟩

end WaterQuality
